import Mathlib

/-!
Verification of the expense-tracking program `expense_track.py`.

The program's data is embedded shallowly:
* an expense record (a Python dict `{"amount": .., "category": .., "date": ..}`)
  becomes the structure `ExpenseRecord`; monetary amounts are modelled as
  rationals (exact arithmetic on the numbers the program manipulates);
* a Python `dict` (which preserves insertion order) becomes an
  insertion-ordered association list `List (String × ℚ)`;
* `sorted(..., key=..., reverse=...)` (a stable sort) becomes the stable
  insertion sort `stableSort`; a stable sort by a total preorder has a unique
  output, so this is the same function Python computes;
* the file system becomes a map `String → Option FileData`, where a present
  file is either `malformed` (text the JSON decoder rejects) or `wellFormed j`
  for the JSON document `j` it decodes to.  The byte-level JSON codec of the
  Python standard library is external to the repository and is abstracted:
  `save_data` stores the document itself, `load_data` reads it back.
-/

namespace ExpenseTrack

/-- One logged expense, as built by `add_expense`: a positive amount, a
category and a date string `YYYY-MM-DD`.  Equality is field-wise, matching
Python `==` on the underlying dicts. -/
structure ExpenseRecord where
  amount : ℚ
  category : String
  date : String
deriving DecidableEq

/-- Placeholder record used only as the default of `List.getD`. -/
def defaultRecord : ExpenseRecord := ⟨0, "", ""⟩

/-- The Python dict update `m[k] = m.get(k, 0) + a` on an insertion-ordered
association list: an existing key keeps its place, a new key is appended. -/
def addSpend : List (String × ℚ) → String → ℚ → List (String × ℚ)
  | [], k, a => [(k, a)]
  | (k', v) :: m, k, a =>
      if k' = k then (k', v + a) :: m else (k', v) :: addSpend m k a

/-- The accumulation loop `for item in expenses: d[key] = d.get(key, 0) + item['amount']`
shared by `view_summary`, `view_monthly_summary`, `view_annual_summary` and
`check_budgets`, parameterised by the grouping key. -/
def spendBy (key : ExpenseRecord → String) (expenses : List ExpenseRecord) :
    List (String × ℚ) :=
  expenses.foldl (fun m e => addSpend m (key e) e.amount) []

/-- `category_spending` of `view_summary` (lines 137-141) and
`current_spending` of `check_budgets` (lines 340-343). -/
def category_spending (expenses : List ExpenseRecord) : List (String × ℚ) :=
  spendBy (fun e => e.category) expenses

/-- `datetime.strptime(date, '%Y-%m-%d').strftime('%Y-%m')`: on a valid
`YYYY-MM-DD` string this is its first seven characters. -/
def month_of (date : String) : String := date.take 7

/-- `datetime.strptime(date, '%Y-%m-%d').strftime('%Y')`: on a valid
`YYYY-MM-DD` string this is its first four characters. -/
def year_of (date : String) : String := date.take 4

/-- `monthly_spending` of `view_monthly_summary` (lines 182-185). -/
def monthly_spending (expenses : List ExpenseRecord) : List (String × ℚ) :=
  spendBy (fun e => month_of e.date) expenses

/-- `annual_spending` of `view_annual_summary` (lines 197-200). -/
def annual_spending (expenses : List ExpenseRecord) : List (String × ℚ) :=
  spendBy (fun e => year_of e.date) expenses

/-- `total_spending = sum(item['amount'] for item in expenses)` (line 133). -/
def total_spending (expenses : List ExpenseRecord) : ℚ :=
  (expenses.map (fun e => e.amount)).sum

/-- Sum of the values of an association list, `sum(d.values())`. -/
def sumValues (m : List (String × ℚ)) : ℚ := (m.map Prod.snd).sum

/-- Does a string have the shape `YYYY-MM-DD` (digits and dashes in the
positions `strptime(_, '%Y-%m-%d')` requires)? -/
def isYmdFormat (s : String) : Bool :=
  match s.toList with
  | [a, b, c, d, e, f, g, h, i, j] =>
      a.isDigit && b.isDigit && c.isDigit && d.isDigit && e = '-' &&
        f.isDigit && g.isDigit && h = '-' && i.isDigit && j.isDigit
  | _ => false

/-- Python `d.get(k)` on the insertion-ordered association list: the value of
the first binding of `k`, if any. -/
def lookupSpend : List (String × ℚ) → String → Option ℚ
  | [], _ => none
  | (k', v) :: m, k => if k' = k then some v else lookupSpend m k

/-- Total amount of the records whose grouping key equals `c`. -/
def keyedTotal (key : ExpenseRecord → String) (es : List ExpenseRecord)
    (c : String) : ℚ :=
  ((es.filter (fun e => key e = c)).map (fun e => e.amount)).sum

/-- The three budget classifications printed by `check_budgets`
(`OVER budget`, `Exactly on budget`, `remaining`). -/
inductive BudgetStatus where
  | over
  | exact
  | under
deriving DecidableEq

/-- One line of the budget-vs-spending overview printed by `check_budgets`. -/
structure BudgetLine where
  category : String
  limit : ℚ
  spent : ℚ
  remaining : ℚ
  status : BudgetStatus
deriving DecidableEq

/-- `check_budgets` (lines 333-356): builds `current_spending` with the same
dict fold as `view_summary`, then walks `budgets.items()` in insertion order;
`spent = current_spending.get(category, 0)`, `remaining = limit - spent`, and
the status is chosen by the sign of `remaining`. -/
def check_budgets (expenses : List ExpenseRecord)
    (budgets : List (String × ℚ)) : List BudgetLine :=
  let current_spending := category_spending expenses
  budgets.map (fun p =>
    let spent := (lookupSpend current_spending p.1).getD 0
    let remaining := p.2 - spent
    { category := p.1, limit := p.2, spent := spent, remaining := remaining,
      status := if remaining < 0 then .over
                else if remaining = 0 then .exact else .under })

/-- Insert `x` immediately before the first element `y` of `l` with
`pre x y`; the building block of the stable insertion sort below. -/
def insertBefore {α : Type} (pre : α → α → Bool) (x : α) : List α → List α
  | [] => [x]
  | y :: ys => if pre x y then x :: y :: ys else y :: insertBefore pre x ys

/-- Stable sort placing `a` before `b` whenever `pre a b`.  Python's `sorted`
is a stable sort (with `reverse=True` it still keeps equal-key elements in
their original order), and a stable sort by a total preorder has a unique
output, so this computes the same list `sorted` does. -/
def stableSort {α : Type} (pre : α → α → Bool) : List α → List α
  | [] => []
  | x :: xs => insertBefore pre x (stableSort pre xs)

/-- `sorted_categories` of `view_summary` (line 145):
`sorted(category_spending.items(), key=lambda item: item[1], reverse=True)`,
descending by per-category total. -/
def sorted_categories (expenses : List ExpenseRecord) : List (String × ℚ) :=
  stableSort (fun a b => decide (b.2 ≤ a.2)) (category_spending expenses)

/-- The spec's `sortedByDate` primitive:
`sorted(expenses, key=lambda x: x['date'])`, reversed when `ascending` is
false.  Python compares strings lexicographically by code point, which is the
lexicographic order on the character lists (equal, by
`String.le_iff_toList_le`, to Lean's `≤` on `String`). -/
def sortedByDate (ascending : Bool) (expenses : List ExpenseRecord) :
    List ExpenseRecord :=
  if ascending then
    stableSort (fun a b => decide (a.date.toList ≤ b.date.toList)) expenses
  else stableSort (fun a b => decide (b.date.toList ≤ a.date.toList)) expenses

/-- `sorted_expenses` of `view_all_expenses_detailed` (line 214): ascending
by date. -/
def sorted_expenses_detailed (expenses : List ExpenseRecord) :
    List ExpenseRecord :=
  stableSort (fun a b => decide (a.date.toList ≤ b.date.toList)) expenses

/-- `sorted_expenses` of `manage_expenses` (line 251): descending by date
(`reverse=True`). -/
def sorted_expenses_manage (expenses : List ExpenseRecord) :
    List ExpenseRecord :=
  stableSort (fun a b => decide (b.date.toList ≤ a.date.toList)) expenses

/-- Keys of an association-list dict, in insertion order. -/
def keysOf (m : List (String × ℚ)) : List String := m.map Prod.fst

/-- First-occurrence deduplication of a key sequence, skipping keys already in
`seen`: the order in which a Python dict built by repeated insertion stores
its keys. -/
def firstKeys (seen : List String) : List String → List String
  | [] => []
  | k :: ks =>
      if k ∈ seen then firstKeys seen ks else k :: firstKeys (k :: seen) ks

/-- Failure of a positional reference in `manage_expenses`: the entered number
does not satisfy `0 <= idx_to_manage < len(sorted_expenses)` (line 267). -/
inductive ManageError where
  | outOfRange
deriving DecidableEq

/-- Python `expenses.index(x)` (line 273): the position of the first element
equal to `x`.  (`manage_expenses` only calls it on a member of the list, so
the total fallback value for an absent `x` is never reached.) -/
def indexOfRecord : List ExpenseRecord → ExpenseRecord → ℕ
  | [], _ => 0
  | e :: es, x => if e = x then 0 else indexOfRecord es x + 1

/-- The confirmed delete branch of `manage_expenses` (lines 264-281): the
displayed list is the date-descending sort; the (already 1-decremented)
entered number selects `original_expense` there; the canonical index is
recovered with `expenses.index(original_expense)`; `expenses.pop` removes and
returns the element at that index. -/
def manage_delete (expenses : List ExpenseRecord) (idx_to_manage : ℤ) :
    Except ManageError (ExpenseRecord × List ExpenseRecord) :=
  let sorted_expenses := sorted_expenses_manage expenses
  if 0 ≤ idx_to_manage ∧ idx_to_manage < (sorted_expenses.length : ℤ) then
    let original_expense :=
      sorted_expenses.getD idx_to_manage.toNat defaultRecord
    let original_idx := indexOfRecord expenses original_expense
    .ok (expenses.getD original_idx defaultRecord,
         expenses.eraseIdx original_idx)
  else .error .outOfRange

/-- The outcome of the three edit prompts (lines 289-306): `none` means the
field was left blank (or, for the amount, failed to parse) and the current
value is kept. -/
structure EditPatch where
  new_amount : Option ℚ
  new_category : Option String
  new_date : Option String

/-- Field update of the edit branch: a provided amount replaces the old one
only when positive (line 293); a provided category or date replaces the old
one. -/
def applyPatch (e : ExpenseRecord) (p : EditPatch) : ExpenseRecord :=
  { amount := match p.new_amount with
      | some a => if a ≤ 0 then e.amount else a
      | none => e.amount
    category := p.new_category.getD e.category
    date := p.new_date.getD e.date }

/-- The edit branch of `manage_expenses` (lines 286-309): same positional
resolution as the delete branch, then an in-place field update at
`original_idx`. -/
def manage_edit (expenses : List ExpenseRecord) (idx_to_manage : ℤ)
    (p : EditPatch) : Except ManageError (List ExpenseRecord) :=
  let sorted_expenses := sorted_expenses_manage expenses
  if 0 ≤ idx_to_manage ∧ idx_to_manage < (sorted_expenses.length : ℤ) then
    let original_expense :=
      sorted_expenses.getD idx_to_manage.toNat defaultRecord
    let original_idx := indexOfRecord expenses original_expense
    .ok (expenses.set original_idx
      (applyPatch (expenses.getD original_idx defaultRecord) p))
  else .error .outOfRange

/-- The displayed-to-canonical translation of `manage_expenses` (lines
271-273): the element shown at a position of the date-descending view, and the
canonical index `expenses.index(original_expense)` it is translated to. -/
def resolveDisplayed (expenses : List ExpenseRecord) (idx : ℤ) :
    ExpenseRecord × ℕ :=
  let original_expense :=
    (sorted_expenses_manage expenses).getD idx.toNat defaultRecord
  (original_expense, indexOfRecord expenses original_expense)

/-- A JSON document as decoded by `json.load` / encoded by `json.dump`,
numbers modelled as rationals. -/
inductive Json where
  | null
  | bool (b : Bool)
  | num (q : ℚ)
  | str (s : String)
  | arr (xs : List Json)
  | obj (fields : List (String × Json))

/-- Content of a present file: either text the JSON decoder rejects
(`json.JSONDecodeError`), or the document it decodes to.  The byte-level
codec of the Python `json` standard library is external to the repository
and abstracted: a well-formed file stores its decoded document. -/
inductive FileData where
  | malformed
  | wellFormed (j : Json)

/-- The file system: maps a file name to its content; `none` is a missing
file (`FileNotFoundError` on open, `os.path.exists` false). -/
def Fs : Type := String → Option FileData

def BASE_EXPENSE_FILE : String := "_expenses.json"

def BASE_BUDGET_FILE : String := "_budgets.json"

def USERS_FILE : String := "users.json"

/-- Does the second character list start with the first? -/
def charsStartWith : List Char → List Char → Bool
  | [], _ => true
  | _ :: _, [] => false
  | a :: pa, b :: pb => a = b && charsStartWith pa pb

/-- Does `pat` occur contiguously in the list? -/
def charsContain (pat : List Char) : List Char → Bool
  | [] => charsStartWith pat []
  | b :: bs => charsStartWith pat (b :: bs) || charsContain pat bs

/-- Python `pat in s` on strings: contiguous substring test. -/
def strContains (pat s : String) : Bool := charsContain pat.toList s.toList

/-- `load_data` (lines 25-38): a present well-formed file's document is
returned unchanged (there is no schema check); a missing file
(`FileNotFoundError`) or undecodable one (`json.JSONDecodeError`) yields the
empty default selected by the file-name pattern: `[]` for names containing
`_expenses.json`, else `{}` for names containing `_budgets.json`, else `[]`
for the registry file, else `{}`. -/
def load_data (fs : Fs) (filename : String) : Json :=
  match fs filename with
  | some (.wellFormed j) => j
  | _ =>
      if strContains BASE_EXPENSE_FILE filename then .arr []
      else if strContains BASE_BUDGET_FILE filename then .obj []
      else if filename = USERS_FILE then .arr []
      else .obj []

/-- `save_data` (lines 40-43): serialize `data` and overwrite `filename`. -/
def save_data (fs : Fs) (data : Json) (filename : String) : Fs :=
  fun n => if n = filename then some (.wellFormed data) else fs n

/-- `if os.path.exists(path): os.remove(path)` (lines 404-409):
removal guarded by existence, a missing file is not an error. -/
def removeFile (fs : Fs) (path : String) : Fs :=
  if (fs path).isSome then fun n => if n = path then none else fs n else fs

/-- The JSON document `json.dump` writes for the users list. -/
def serializeUsers (users : List String) : Json := .arr (users.map .str)

/-- The program state the user-management operations act on: the file system,
the in-memory `users` list, and the global `CURRENT_USERNAME`. -/
structure AppState where
  fs : Fs
  users : List String
  current : Option String

/-- `delete_user_profile` (lines 391-433) after the `DELETE USER`
confirmation: it removes both data files first — before any membership
check — then, if the username is in the users list, removes its first
occurrence (`list.remove`), persists the list to `USERS_FILE`, logs the user
out when it was the active one, and returns `True`; otherwise it reports the
user as not found and returns `False`. -/
def delete_user_profile (s : AppState) (username_to_delete : String) :
    Bool × AppState :=
  let fs1 := removeFile s.fs (username_to_delete ++ BASE_EXPENSE_FILE)
  let fs2 := removeFile fs1 (username_to_delete ++ BASE_BUDGET_FILE)
  if username_to_delete ∈ s.users then
    let users' := s.users.erase username_to_delete
    let fs3 := save_data fs2 (serializeUsers users') USERS_FILE
    let current' :=
      if s.current = some username_to_delete then none else s.current
    (true, ⟨fs3, users', current'⟩)
  else (false, ⟨fs2, s.users, s.current⟩)

/-- Python `str.isalnum()` (restricted to ASCII): non-empty and every
character a letter or digit.  Empty strings are not alphanumeric. -/
def pyIsAlnum (s : String) : Bool :=
  !s.isEmpty && s.toList.all (fun c => c.isAlphanum)

/-- The two rejection messages of the create branch of
`user_management_menu`. -/
inductive CreateUserError where
  | invalidUsername
  | duplicateUser
deriving DecidableEq

/-- The create branch of `user_management_menu` (lines 479-493): rejects a
non-alphanumeric (in particular empty) name first, then a name already in
the users list; otherwise appends the name, persists the list to
`USERS_FILE` and makes the new user active.  On rejection the loop
re-prompts, leaving all state untouched. -/
def create_user (s : AppState) (new_username : String) :
    Option CreateUserError × AppState :=
  if !pyIsAlnum new_username then (some .invalidUsername, s)
  else if new_username ∈ s.users then (some .duplicateUser, s)
  else
    let users' := s.users ++ [new_username]
    (none, ⟨save_data s.fs (serializeUsers users') USERS_FILE, users',
      some new_username⟩)

/-- Concrete state for the C4 counterexample: an empty registry but a stray
expense file bearing the name of the unregistered user `ghost`. -/
def ghostState : AppState :=
  ⟨fun n => if n = "ghost_expenses.json" then some (.wellFormed (.arr []))
    else none, [], none⟩

/-- Concrete state for the C8 counterexample: a registry already containing
the (non-alphanumeric) name `"a b"`. -/
def spacedState : AppState := ⟨fun _ => none, ["a b"], none⟩

/-- Concrete state for the C4 witness: `bob` registered and active, no
files. -/
def bobState : AppState := ⟨fun _ => none, ["bob"], some "bob"⟩

theorem sumValues_nil : sumValues [] = 0 := rfl

theorem sumValues_cons (p : String × ℚ) (m : List (String × ℚ)) :
    sumValues (p :: m) = p.2 + sumValues m := by
  simp [sumValues]

theorem sumValues_addSpend (m : List (String × ℚ)) (k : String) (a : ℚ) :
    sumValues (addSpend m k a) = sumValues m + a := by
  induction m with
  | nil => simp [addSpend, sumValues]
  | cons p m ih =>
      obtain ⟨k', v⟩ := p
      by_cases h : k' = k
      · simp [addSpend, h, sumValues_cons]; ring
      · simp [addSpend, h, sumValues_cons, ih]; ring

theorem total_spending_cons (e : ExpenseRecord) (es : List ExpenseRecord) :
    total_spending (e :: es) = e.amount + total_spending es := by
  simp [total_spending]

theorem sumValues_foldl (key : ExpenseRecord → String)
    (es : List ExpenseRecord) :
    ∀ m, sumValues (es.foldl (fun m e => addSpend m (key e) e.amount) m) =
      sumValues m + total_spending es := by
  induction es with
  | nil => intro m; simp [total_spending]
  | cons e es ih =>
      intro m
      simp only [List.foldl_cons, ih, sumValues_addSpend, total_spending_cons]
      ring

theorem sumValues_spendBy (key : ExpenseRecord → String)
    (es : List ExpenseRecord) :
    sumValues (spendBy key es) = total_spending es := by
  simpa [spendBy, sumValues_nil] using sumValues_foldl key es []

theorem lookupSpend_addSpend_self (m : List (String × ℚ)) (k : String) (a : ℚ) :
    lookupSpend (addSpend m k a) k = some ((lookupSpend m k).getD 0 + a) := by
  induction m with
  | nil => simp [addSpend, lookupSpend]
  | cons p m ih =>
      obtain ⟨k', v⟩ := p
      by_cases h : k' = k
      · simp [addSpend, h, lookupSpend]
      · simp [addSpend, h, lookupSpend, ih]

theorem lookupSpend_addSpend_ne (m : List (String × ℚ)) (k c : String) (a : ℚ)
    (h : c ≠ k) : lookupSpend (addSpend m k a) c = lookupSpend m c := by
  have hk : ¬(k = c) := fun h' => h h'.symm
  induction m with
  | nil => simp [addSpend, lookupSpend, hk]
  | cons p m ih =>
      obtain ⟨k', v⟩ := p
      by_cases h' : k' = k
      · subst h'
        simp [addSpend, lookupSpend, hk]
      · simp [addSpend, lookupSpend, h', ih]

theorem keyedTotal_cons (key : ExpenseRecord → String) (e : ExpenseRecord)
    (es : List ExpenseRecord) (c : String) :
    keyedTotal key (e :: es) c =
      (if key e = c then e.amount else 0) + keyedTotal key es c := by
  by_cases h : key e = c <;> simp [keyedTotal, List.filter_cons, h]

theorem getD_lookupSpend_foldl (key : ExpenseRecord → String)
    (es : List ExpenseRecord) :
    ∀ (m : List (String × ℚ)) (c : String),
      (lookupSpend (es.foldl (fun m e => addSpend m (key e) e.amount) m) c).getD 0 =
        (lookupSpend m c).getD 0 + keyedTotal key es c := by
  induction es with
  | nil => intro m c; simp [keyedTotal]
  | cons e es ih =>
      intro m c
      rw [List.foldl_cons, ih, keyedTotal_cons]
      by_cases h : key e = c
      · subst h
        rw [lookupSpend_addSpend_self]
        simp
        ring
      · rw [lookupSpend_addSpend_ne _ _ _ _ (fun h' => h h'.symm)]
        simp [h]

theorem getD_lookupSpend_spendBy (key : ExpenseRecord → String)
    (es : List ExpenseRecord) (c : String) :
    (lookupSpend (spendBy key es) c).getD 0 = keyedTotal key es c := by
  simpa [lookupSpend] using getD_lookupSpend_foldl key es [] c

theorem length_filter_category (L : List BudgetLine) (c : String) :
    (L.filter (fun l => l.category = c)).length =
      (L.map BudgetLine.category).count c := by
  induction L with
  | nil => simp
  | cons l L ih =>
      by_cases h : l.category = c <;>
        simp [List.filter_cons, List.count_cons, h, ih]

/-- C2: for every record sequence whose dates are valid `YYYY-MM-DD` strings,
the per-group totals of the category, month and year groupings each sum to
`total_spending`, the sum of all record amounts (0 for the empty sequence). -/
theorem summary_totals (expenses : List ExpenseRecord)
    (_hdates : ∀ r ∈ expenses, isYmdFormat r.date = true) :
    sumValues (category_spending expenses) = total_spending expenses
    ∧ sumValues (monthly_spending expenses) = total_spending expenses
    ∧ sumValues (annual_spending expenses) = total_spending expenses :=
  ⟨sumValues_spendBy _ _, sumValues_spendBy _ _, sumValues_spendBy _ _⟩

theorem summary_totals_witness :
    (∀ r ∈ [(⟨100, "Food", "2024-01-05"⟩ : ExpenseRecord),
            ⟨50, "Food", "2024-02-01"⟩], isYmdFormat r.date = true)
    ∧ sumValues (monthly_spending
        [⟨100, "Food", "2024-01-05"⟩, ⟨50, "Food", "2024-02-01"⟩]) =
      total_spending [⟨100, "Food", "2024-01-05"⟩, ⟨50, "Food", "2024-02-01"⟩] :=
  ⟨by decide, (summary_totals _ (by decide)).2.1⟩

theorem statusClassify (r : ℚ) :
    ((if r < 0 then BudgetStatus.over else if r = 0 then BudgetStatus.exact
        else BudgetStatus.under) = BudgetStatus.over ↔ r < 0)
    ∧ ((if r < 0 then BudgetStatus.over else if r = 0 then BudgetStatus.exact
        else BudgetStatus.under) = BudgetStatus.exact ↔ r = 0)
    ∧ ((if r < 0 then BudgetStatus.over else if r = 0 then BudgetStatus.exact
        else BudgetStatus.under) = BudgetStatus.under ↔ 0 < r) := by
  rcases lt_trichotomy r 0 with h | h | h
  · rw [if_pos h]
    exact ⟨⟨fun _ => h, fun _ => rfl⟩,
      ⟨fun hc => BudgetStatus.noConfusion hc,
       fun he => absurd (he ▸ h) (lt_irrefl 0)⟩,
      ⟨fun hc => BudgetStatus.noConfusion hc,
       fun hu => absurd (lt_trans h hu) (lt_irrefl r)⟩⟩
  · rw [if_neg (by rw [h]; exact lt_irrefl 0), if_pos h]
    exact ⟨⟨fun hc => BudgetStatus.noConfusion hc,
       fun hl => absurd (h ▸ hl) (lt_irrefl 0)⟩,
      ⟨fun _ => h, fun _ => rfl⟩,
      ⟨fun hc => BudgetStatus.noConfusion hc,
       fun hu => absurd (h ▸ hu) (lt_irrefl 0)⟩⟩
  · have h1 : ¬r < 0 := asymm h
    have h2 : ¬r = 0 := ne_of_gt h
    rw [if_neg h1, if_neg h2]
    exact ⟨⟨fun hc => BudgetStatus.noConfusion hc, fun hl => absurd hl h1⟩,
      ⟨fun hc => BudgetStatus.noConfusion hc, fun he => absurd he h2⟩,
      ⟨fun _ => h, fun _ => rfl⟩⟩

/-- C1: `check_budgets` yields exactly one line per budget key, in the budget
mapping's insertion order; each line's `spent` is the sum of the amounts of the
records in that category (0 when there are none), `remaining = limit - spent`,
and the status is `over`/`exact`/`under` exactly when `remaining` is
negative/zero/positive; no category outside the budget mapping is reported. -/
theorem check_budgets_spec (expenses : List ExpenseRecord)
    (budgets : List (String × ℚ)) (hkeys : (budgets.map Prod.fst).Nodup) :
    (check_budgets expenses budgets).map BudgetLine.category = budgets.map Prod.fst
    ∧ (∀ c ∈ budgets.map Prod.fst,
        ((check_budgets expenses budgets).filter
          (fun l => l.category = c)).length = 1)
    ∧ (∀ l ∈ check_budgets expenses budgets,
        l.category ∈ budgets.map Prod.fst
        ∧ l.spent = keyedTotal (fun e => e.category) expenses l.category
        ∧ l.remaining = l.limit - l.spent
        ∧ (l.status = .over ↔ l.remaining < 0)
        ∧ (l.status = .exact ↔ l.remaining = 0)
        ∧ (l.status = .under ↔ 0 < l.remaining)) := by
  have hmap : (check_budgets expenses budgets).map BudgetLine.category =
      budgets.map Prod.fst := by
    simp [check_budgets]
  refine ⟨hmap, ?_, ?_⟩
  · intro c hc
    rw [length_filter_category, hmap]
    exact List.count_eq_one_of_mem hkeys hc
  · intro l hl
    simp only [check_budgets, List.mem_map] at hl
    obtain ⟨p, hp, rfl⟩ := hl
    exact ⟨List.mem_map_of_mem _ hp, getD_lookupSpend_spendBy _ _ _, rfl,
      (statusClassify _).1, (statusClassify _).2.1, (statusClassify _).2.2⟩

theorem check_budgets_spec_witness :
    (([("Food", (120 : ℚ))].map Prod.fst).Nodup)
    ∧ (check_budgets
        [⟨100, "Food", "2024-01-05"⟩, ⟨50, "Food", "2024-02-01"⟩]
        [("Food", 120)]).map BudgetLine.category = ["Food"] :=
  ⟨by decide, by
    simpa using (check_budgets_spec
      [⟨100, "Food", "2024-01-05"⟩, ⟨50, "Food", "2024-02-01"⟩]
      [("Food", 120)] (by decide)).1⟩

theorem insertBefore_perm {α : Type} (pre : α → α → Bool) (x : α)
    (l : List α) : (insertBefore pre x l).Perm (x :: l) := by
  induction l with
  | nil => exact List.Perm.refl _
  | cons y ys ih =>
      by_cases h : pre x y
      · rw [insertBefore, if_pos h]
      · rw [insertBefore, if_neg h]
        exact (ih.cons y).trans (List.Perm.swap x y ys)

theorem stableSort_perm {α : Type} (pre : α → α → Bool) (l : List α) :
    (stableSort pre l).Perm l := by
  induction l with
  | nil => exact List.Perm.refl _
  | cons x xs ih =>
      exact (insertBefore_perm pre x (stableSort pre xs)).trans (ih.cons x)

theorem pairwise_insertBefore {α : Type} (pre : α → α → Bool)
    (htot : ∀ a b, pre a b = true ∨ pre b a = true)
    (htrans : ∀ a b c, pre a b = true → pre b c = true → pre a c = true)
    (x : α) (l : List α) (h : l.Pairwise (fun a b => pre a b = true)) :
    (insertBefore pre x l).Pairwise (fun a b => pre a b = true) := by
  induction l with
  | nil => simp [insertBefore]
  | cons y ys ih =>
      rw [List.pairwise_cons] at h
      obtain ⟨hy, hys⟩ := h
      by_cases hxy : pre x y
      · rw [insertBefore, if_pos hxy, List.pairwise_cons]
        refine ⟨?_, List.pairwise_cons.mpr ⟨hy, hys⟩⟩
        intro z hz
        rcases List.mem_cons.mp hz with rfl | hz'
        · exact hxy
        · exact htrans x y z hxy (hy z hz')
      · rw [insertBefore, if_neg hxy, List.pairwise_cons]
        refine ⟨?_, ih hys⟩
        intro z hz
        have hz' : z = x ∨ z ∈ ys := by
          have := (insertBefore_perm pre x ys).mem_iff.mp hz
          simpa using this
        rcases hz' with rfl | hz''
        · rcases htot z y with h' | h'
          · exact absurd h' hxy
          · exact h'
        · exact hy z hz''

theorem stableSort_pairwise {α : Type} (pre : α → α → Bool)
    (htot : ∀ a b, pre a b = true ∨ pre b a = true)
    (htrans : ∀ a b c, pre a b = true → pre b c = true → pre a c = true)
    (l : List α) :
    (stableSort pre l).Pairwise (fun a b => pre a b = true) := by
  induction l with
  | nil => simp [stableSort]
  | cons x xs ih => exact pairwise_insertBefore pre htot htrans x _ ih

theorem filter_insertBefore {α κ : Type} [DecidableEq κ] (k : α → κ)
    (pre : α → α → Bool) (hkey : ∀ a b, k a = k b → pre a b = true)
    (x : α) (l : List α) (v : κ) :
    (insertBefore pre x l).filter (fun e => k e = v) =
      if k x = v then x :: l.filter (fun e => k e = v)
      else l.filter (fun e => k e = v) := by
  induction l with
  | nil => by_cases h : k x = v <;> simp [insertBefore, h]
  | cons y ys ih =>
      by_cases hxy : pre x y
      · rw [insertBefore, if_pos hxy]
        by_cases h : k x = v <;> simp [List.filter_cons, h]
      · rw [insertBefore, if_neg hxy]
        by_cases h : k x = v
        · have hyv : ¬(k y = v) := fun hyv => hxy (hkey x y (by rw [h, hyv]))
          simp [List.filter_cons, hyv, ih, h]
        · simp [List.filter_cons, ih, h]

theorem filter_stableSort {α κ : Type} [DecidableEq κ] (k : α → κ)
    (pre : α → α → Bool) (hkey : ∀ a b, k a = k b → pre a b = true)
    (l : List α) (v : κ) :
    (stableSort pre l).filter (fun e => k e = v) =
      l.filter (fun e => k e = v) := by
  induction l with
  | nil => rfl
  | cons x xs ih =>
      rw [stableSort, filter_insertBefore k pre hkey, List.filter_cons]
      by_cases h : k x = v <;> simp [h, ih]

theorem keysOf_nil : keysOf [] = [] := rfl

theorem keysOf_cons (p : String × ℚ) (m : List (String × ℚ)) :
    keysOf (p :: m) = p.1 :: keysOf m := rfl

theorem keysOf_addSpend (m : List (String × ℚ)) (k : String) (a : ℚ) :
    keysOf (addSpend m k a) =
      if k ∈ keysOf m then keysOf m else keysOf m ++ [k] := by
  induction m with
  | nil => simp [addSpend, keysOf]
  | cons p m ih =>
      obtain ⟨k', v⟩ := p
      by_cases h : k' = k
      · subst h
        simp [addSpend, keysOf_cons]
      · have hne : ¬(k = k') := fun he => h he.symm
        by_cases hk : k ∈ keysOf m <;>
          simp [addSpend, h, keysOf_cons, ih, hk, hne]

theorem firstKeys_congr (s₁ s₂ : List String)
    (hs : ∀ x, x ∈ s₁ ↔ x ∈ s₂) (l : List String) :
    firstKeys s₁ l = firstKeys s₂ l := by
  induction l generalizing s₁ s₂ with
  | nil => rfl
  | cons k ks ih =>
      by_cases h : k ∈ s₁
      · rw [firstKeys, if_pos h, firstKeys, if_pos ((hs k).mp h)]
        exact ih s₁ s₂ hs
      · rw [firstKeys, if_neg h, firstKeys, if_neg (fun hc => h ((hs k).mpr hc))]
        congr 1
        exact ih _ _ (fun x => by simp [List.mem_cons, hs x])

theorem keysOf_foldl (key : ExpenseRecord → String) (es : List ExpenseRecord) :
    ∀ m, keysOf (es.foldl (fun m e => addSpend m (key e) e.amount) m) =
      keysOf m ++ firstKeys (keysOf m) (es.map key) := by
  induction es with
  | nil => intro m; simp [firstKeys]
  | cons e es ih =>
      intro m
      rw [List.foldl_cons, ih, List.map_cons, keysOf_addSpend]
      by_cases h : key e ∈ keysOf m
      · rw [if_pos h, firstKeys, if_pos h]
      · rw [if_neg h, firstKeys, if_neg h]
        have hcongr : firstKeys (keysOf m ++ [key e]) (es.map key) =
            firstKeys (key e :: keysOf m) (es.map key) :=
          firstKeys_congr _ _
            (fun x => by simp [List.mem_append, List.mem_cons, or_comm]) _
        rw [hcongr, List.append_assoc, List.singleton_append]

theorem keysOf_spendBy (key : ExpenseRecord → String)
    (es : List ExpenseRecord) :
    keysOf (spendBy key es) = firstKeys [] (es.map key) := by
  simpa [keysOf_nil] using keysOf_foldl key es []

/-- C5: the category report of `view_summary` lists its (category, total)
pairs in descending order of total; it is a permutation of the
insertion-ordered spending dict, pairs with equal totals keep that dict's
relative order (stability of `sorted`), and the dict's key order is the order
in which each category first occurs in the input. -/
theorem sorted_categories_spec (expenses : List ExpenseRecord) :
    (sorted_categories expenses).Pairwise (fun a b => b.2 ≤ a.2)
    ∧ (sorted_categories expenses).Perm (category_spending expenses)
    ∧ (∀ v : ℚ, (sorted_categories expenses).filter (fun p => p.2 = v) =
        (category_spending expenses).filter (fun p => p.2 = v))
    ∧ keysOf (category_spending expenses) =
        firstKeys [] (expenses.map (fun e => e.category)) := by
  refine ⟨?_, stableSort_perm _ _, ?_, keysOf_spendBy _ _⟩
  · have h := stableSort_pairwise (fun a b : String × ℚ => decide (b.2 ≤ a.2))
      (fun a b => by
        rcases le_total b.2 a.2 with h' | h'
        · exact Or.inl (decide_eq_true h')
        · exact Or.inr (decide_eq_true h'))
      (fun a b c hab hbc =>
        decide_eq_true (le_trans (of_decide_eq_true hbc) (of_decide_eq_true hab)))
      (category_spending expenses)
    exact h.imp (fun hab => of_decide_eq_true hab)
  · intro v
    exact filter_stableSort Prod.snd _
      (fun a b hab => decide_eq_true (le_of_eq hab.symm)) _ v

/-- C6: `sortedByDate` is a stable permutation of its input, ordered by date
string in the requested direction, with equal-date records keeping their
original relative order; the detailed listing view is the ascending instance
and the management view the descending one. -/
theorem sortedByDate_spec (expenses : List ExpenseRecord) (ascending : Bool) :
    (sortedByDate ascending expenses).Perm expenses
    ∧ (ascending = true →
        (sortedByDate ascending expenses).Pairwise (fun a b => a.date ≤ b.date))
    ∧ (ascending = false →
        (sortedByDate ascending expenses).Pairwise (fun a b => b.date ≤ a.date))
    ∧ (∀ d, (sortedByDate ascending expenses).filter (fun e => e.date = d) =
        expenses.filter (fun e => e.date = d))
    ∧ sorted_expenses_detailed expenses = sortedByDate true expenses
    ∧ sorted_expenses_manage expenses = sortedByDate false expenses := by
  refine ⟨?_, ?_, ?_, ?_, rfl, rfl⟩
  · cases ascending <;>
      simpa [sortedByDate] using stableSort_perm _ expenses
  · rintro rfl
    have h := stableSort_pairwise
      (fun a b : ExpenseRecord => decide (a.date.toList ≤ b.date.toList))
      (fun a b => by
        rcases le_total a.date.toList b.date.toList with h' | h'
        · exact Or.inl (decide_eq_true h')
        · exact Or.inr (decide_eq_true h'))
      (fun a b c hab hbc =>
        decide_eq_true (le_trans (of_decide_eq_true hab) (of_decide_eq_true hbc)))
      expenses
    simpa [sortedByDate] using h.imp
      (fun hab => String.le_iff_toList_le.mpr (of_decide_eq_true hab))
  · rintro rfl
    have h := stableSort_pairwise
      (fun a b : ExpenseRecord => decide (b.date.toList ≤ a.date.toList))
      (fun a b => by
        rcases le_total b.date.toList a.date.toList with h' | h'
        · exact Or.inl (decide_eq_true h')
        · exact Or.inr (decide_eq_true h'))
      (fun a b c hab hbc =>
        decide_eq_true (le_trans (of_decide_eq_true hbc) (of_decide_eq_true hab)))
      expenses
    simpa [sortedByDate] using h.imp
      (fun hab => String.le_iff_toList_le.mpr (of_decide_eq_true hab))
  · intro d
    cases ascending <;>
      · simp only [sortedByDate, Bool.false_eq_true, if_false, if_true]
        exact filter_stableSort ExpenseRecord.date _
          (fun a b hab => decide_eq_true (le_of_eq (by rw [hab]))) _ d

theorem sortedByDate_spec_witness :
    (true = true)
    ∧ (sortedByDate true
        [⟨1, "A", "2024-02-01"⟩, ⟨2, "B", "2024-01-05"⟩]).Pairwise
        (fun a b => a.date ≤ b.date) :=
  ⟨rfl, (sortedByDate_spec
    [⟨1, "A", "2024-02-01"⟩, ⟨2, "B", "2024-01-05"⟩] true).2.1 rfl⟩

theorem indexOfRecord_spec (es : List ExpenseRecord) (x : ExpenseRecord)
    (h : x ∈ es) :
    indexOfRecord es x < es.length
    ∧ es.getD (indexOfRecord es x) defaultRecord = x
    ∧ ∀ j, j < indexOfRecord es x → es.getD j defaultRecord ≠ x := by
  induction es with
  | nil => cases h
  | cons e es ih =>
      by_cases he : e = x
      · refine ⟨?_, ?_, ?_⟩
        · simp [indexOfRecord, he]
        · simp [indexOfRecord, he]
        · intro j hj
          simp [indexOfRecord, he] at hj
      · have hx : x ∈ es := by
          rcases List.mem_cons.mp h with h' | h'
          · exact absurd h'.symm he
          · exact h'
        obtain ⟨ih1, ih2, ih3⟩ := ih hx
        refine ⟨?_, ?_, ?_⟩
        · simp only [indexOfRecord, if_neg he, List.length_cons]
          exact Nat.succ_lt_succ ih1
        · simp only [indexOfRecord, if_neg he, List.getD_cons_succ]
          exact ih2
        · intro j hj
          simp only [indexOfRecord, if_neg he] at hj
          cases j with
          | zero => simpa [List.getD_cons_zero] using he
          | succ j =>
              rw [List.getD_cons_succ]
              exact ih3 j (Nat.lt_of_succ_lt_succ hj)

theorem perm_getD_cons_eraseIdx (es : List ExpenseRecord) (i : ℕ)
    (h : i < es.length) :
    es.Perm (es.getD i defaultRecord :: es.eraseIdx i) := by
  induction es generalizing i with
  | nil => exact absurd h (Nat.not_lt_zero i)
  | cons e es ih =>
      cases i with
      | zero =>
          rw [List.getD_cons_zero]
          exact List.Perm.refl _
      | succ i =>
          have h' : i < es.length := Nat.lt_of_succ_lt_succ h
          rw [List.getD_cons_succ]
          exact ((ih i h').cons e).trans (List.Perm.swap _ e _)

/-- C7: an out-of-range positional reference makes the delete branch of
`manage_expenses` fail with `outOfRange` and produce no modified sequence
(e.g. index 5 into a 2-element sequence); a valid reference removes one
element: the returned record is the selected entry of the displayed
(date-descending) list, the remainder is a sublist of the original (relative
order of the remaining elements preserved), and the original sequence is a
permutation of the removed record joined with the remainder. -/
theorem manage_delete_spec (expenses : List ExpenseRecord) (idx : ℤ) :
    (¬(0 ≤ idx ∧ idx < (expenses.length : ℤ)) →
      manage_delete expenses idx = .error .outOfRange)
    ∧ (∀ removed rest,
        manage_delete expenses idx = .ok (removed, rest) →
          removed = (sorted_expenses_manage expenses).getD idx.toNat defaultRecord
          ∧ removed ∈ expenses
          ∧ rest.Sublist expenses
          ∧ expenses.Perm (removed :: rest)) := by
  have hlen : (sorted_expenses_manage expenses).length = expenses.length :=
    (stableSort_perm _ _).length_eq
  constructor
  · intro h
    have h' : ¬(0 ≤ idx ∧ idx < ((sorted_expenses_manage expenses).length : ℤ)) := by
      rw [hlen]; exact h
    simp only [manage_delete, if_neg h']
  · intro removed rest hok
    by_cases hc : 0 ≤ idx ∧ idx < ((sorted_expenses_manage expenses).length : ℤ)
    · simp only [manage_delete, if_pos hc, Except.ok.injEq, Prod.mk.injEq] at hok
      obtain ⟨h1, h2⟩ := hok
      have hidx : idx.toNat < (sorted_expenses_manage expenses).length := by
        omega
      have htmem :
          (sorted_expenses_manage expenses).getD idx.toNat defaultRecord ∈
            expenses := by
        have hmem' :
            (sorted_expenses_manage expenses).getD idx.toNat defaultRecord ∈
              sorted_expenses_manage expenses := by
          rw [List.getD_eq_getElem _ _ hidx]
          exact List.getElem_mem hidx
        exact (stableSort_perm _ _).mem_iff.mp hmem'
      obtain ⟨hi1, hi2, hi3⟩ := indexOfRecord_spec expenses _ htmem
      refine ⟨?_, ?_, ?_, ?_⟩
      · rw [← h1]; exact hi2
      · rw [← h1, hi2]; exact htmem
      · rw [← h2]; exact List.eraseIdx_sublist _ _
      · rw [← h1, ← h2]; exact perm_getD_cons_eraseIdx expenses _ hi1
    · have hfail : manage_delete expenses idx = .error .outOfRange := by
        simp only [manage_delete, if_neg hc]
      rw [hfail] at hok
      exact Except.noConfusion hok

theorem manage_delete_spec_witness :
    ¬((0 : ℤ) ≤ 5 ∧ (5 : ℤ) <
        ((([⟨100, "Food", "2024-01-05"⟩, ⟨50, "Food", "2024-02-01"⟩] :
          List ExpenseRecord).length : ℤ)))
    ∧ manage_delete
        [⟨100, "Food", "2024-01-05"⟩, ⟨50, "Food", "2024-02-01"⟩] 5 =
      .error .outOfRange :=
  ⟨by decide, (manage_delete_spec _ 5).1 (by decide)⟩

/-- C10: for a valid selection in the management view, both the delete and the
edit branch translate the displayed element back to the canonical index found
by `expenses.index(...)` — the position of the earliest stored record equal to
the selection — so under duplicates both operations act on the earliest equal
duplicate, a fixed deterministic choice. -/
theorem manage_acts_on_first_duplicate (expenses : List ExpenseRecord)
    (idx : ℤ) (p : EditPatch)
    (h : 0 ≤ idx ∧ idx < (expenses.length : ℤ)) :
    manage_delete expenses idx = .ok
        (expenses.getD (resolveDisplayed expenses idx).2 defaultRecord,
         expenses.eraseIdx (resolveDisplayed expenses idx).2)
    ∧ manage_edit expenses idx p = .ok
        (expenses.set (resolveDisplayed expenses idx).2
          (applyPatch
            (expenses.getD (resolveDisplayed expenses idx).2 defaultRecord) p))
    ∧ expenses.getD (resolveDisplayed expenses idx).2 defaultRecord =
        (resolveDisplayed expenses idx).1
    ∧ ∀ j, j < (resolveDisplayed expenses idx).2 →
        expenses.getD j defaultRecord ≠ (resolveDisplayed expenses idx).1 := by
  have hlen : (sorted_expenses_manage expenses).length = expenses.length :=
    (stableSort_perm _ _).length_eq
  have hc : 0 ≤ idx ∧ idx < ((sorted_expenses_manage expenses).length : ℤ) :=
    ⟨h.1, by rw [hlen]; exact h.2⟩
  have hidx : idx.toNat < (sorted_expenses_manage expenses).length := by
    omega
  have htmem :
      (sorted_expenses_manage expenses).getD idx.toNat defaultRecord ∈
        expenses := by
    have hmem' :
        (sorted_expenses_manage expenses).getD idx.toNat defaultRecord ∈
          sorted_expenses_manage expenses := by
      rw [List.getD_eq_getElem _ _ hidx]
      exact List.getElem_mem hidx
    exact (stableSort_perm _ _).mem_iff.mp hmem'
  refine ⟨?_, ?_, ?_, ?_⟩
  · simp only [manage_delete, if_pos hc, resolveDisplayed]
  · simp only [manage_edit, if_pos hc, resolveDisplayed]
  · exact (indexOfRecord_spec expenses _ htmem).2.1
  · exact (indexOfRecord_spec expenses _ htmem).2.2

theorem manage_acts_on_first_duplicate_witness :
    ((0 : ℤ) ≤ 1 ∧ (1 : ℤ) <
      ((([⟨5, "Food", "2024-01-01"⟩, ⟨5, "Food", "2024-01-01"⟩] :
        List ExpenseRecord).length : ℤ)))
    ∧ manage_delete
        [⟨5, "Food", "2024-01-01"⟩, ⟨5, "Food", "2024-01-01"⟩] 1 =
      .ok (⟨5, "Food", "2024-01-01"⟩, [⟨5, "Food", "2024-01-01"⟩]) :=
  ⟨by decide, by
    have h1 := (manage_acts_on_first_duplicate
      [⟨5, "Food", "2024-01-01"⟩, ⟨5, "Food", "2024-01-01"⟩] 1
      ⟨none, none, none⟩ (by decide)).1
    have h2 : (resolveDisplayed
        [⟨5, "Food", "2024-01-01"⟩, ⟨5, "Food", "2024-01-01"⟩] 1).2 = 0 := by
      decide
    rw [h1, h2]
    simp⟩

theorem removeFile_self (fs : Fs) (path : String) :
    removeFile fs path path = none := by
  rw [removeFile]
  by_cases h : (fs path).isSome
  · rw [if_pos h]; simp
  · rw [if_neg h]; exact Option.not_isSome_iff_eq_none.mp h

theorem removeFile_other (fs : Fs) (path n : String) (h : n ≠ path) :
    removeFile fs path n = fs n := by
  rw [removeFile]
  by_cases h' : (fs path).isSome
  · rw [if_pos h']; simp [h]
  · rw [if_neg h']

theorem save_data_self (fs : Fs) (data : Json) (filename : String) :
    save_data fs data filename filename = some (.wellFormed data) := by
  simp [save_data]

theorem save_data_other (fs : Fs) (data : Json) (filename n : String)
    (h : n ≠ filename) : save_data fs data filename n = fs n := by
  simp [save_data, h]

theorem expense_file_ne_budget_file (u : String) :
    u ++ BASE_EXPENSE_FILE ≠ u ++ BASE_BUDGET_FILE := by
  intro h
  have hlen := congrArg String.length h
  rw [String.length_append, String.length_append] at hlen
  have h1 : BASE_EXPENSE_FILE.length = 14 := rfl
  have h2 : BASE_BUDGET_FILE.length = 13 := rfl
  omega

theorem expense_file_ne_users_file (u : String) :
    u ++ BASE_EXPENSE_FILE ≠ USERS_FILE := by
  intro h
  have hlen := congrArg String.length h
  rw [String.length_append] at hlen
  have h1 : BASE_EXPENSE_FILE.length = 14 := rfl
  have h2 : USERS_FILE.length = 10 := rfl
  omega

theorem budget_file_ne_users_file (u : String) :
    u ++ BASE_BUDGET_FILE ≠ USERS_FILE := by
  intro h
  have hlen := congrArg String.length h
  rw [String.length_append] at hlen
  have h1 : BASE_BUDGET_FILE.length = 13 := rfl
  have h2 : USERS_FILE.length = 10 := rfl
  omega

/-- C9: the save/load round trip returns the value just saved, for every file
system, JSON document and location (the byte-level codec of the standard
`json` library is abstracted as the identity on decoded documents; see the
module docstring). -/
theorem save_load_roundtrip (fs : Fs) (data : Json) (filename : String) :
    load_data (save_data fs data filename) filename = data := by
  simp [load_data, save_data]

/-- C3 counterexample: a budget store whose backing file holds well-formed
JSON of the wrong shape (a list).  The claim says `load` returns the empty
mapping for a schema-mismatched budget store; `load_data` instead returns the
list unchanged — only `FileNotFoundError` and `JSONDecodeError` are caught,
and there is no schema check. -/
theorem load_data_schema_mismatch_cx :
    load_data
      (fun n => if n = "bob" ++ BASE_BUDGET_FILE
        then some (.wellFormed (.arr [.num 1])) else none)
      ("bob" ++ BASE_BUDGET_FILE) = .arr [.num 1]
    ∧ Json.arr [.num 1] ≠ .obj [] := by
  refine ⟨rfl, fun h => Json.noConfusion h⟩

/-- C3 (amended): on a missing or malformed (undecodable) backing file,
`load_data` returns the empty value selected by the location's name — empty
list for expense stores (name containing `_expenses.json`), empty object for
budget stores, empty list for the registry — and never raises; a present
well-formed file's document is returned unchanged even when its shape does
not match the store's schema. -/
theorem load_data_defaults (fs : Fs) (filename : String) :
    ((fs filename = none ∨ fs filename = some .malformed) →
      (strContains BASE_EXPENSE_FILE filename = true →
        load_data fs filename = .arr [])
      ∧ (strContains BASE_EXPENSE_FILE filename = false →
          strContains BASE_BUDGET_FILE filename = true →
          load_data fs filename = .obj [])
      ∧ (filename = USERS_FILE → load_data fs filename = .arr []))
    ∧ (∀ j, fs filename = some (.wellFormed j) →
        load_data fs filename = j) := by
  constructor
  · intro hmiss
    have hdef : load_data fs filename =
        (if strContains BASE_EXPENSE_FILE filename then Json.arr []
         else if strContains BASE_BUDGET_FILE filename then Json.obj []
         else if filename = USERS_FILE then Json.arr [] else Json.obj []) := by
      rcases hmiss with h | h <;> rw [load_data, h]
    refine ⟨?_, ?_, ?_⟩
    · intro h1
      rw [hdef, if_pos h1]
    · intro h1 h2
      rw [hdef, if_neg (by rw [h1]; exact Bool.false_ne_true), if_pos h2]
    · intro h3
      subst h3
      have h1 : strContains BASE_EXPENSE_FILE USERS_FILE = false := by decide
      have h2 : strContains BASE_BUDGET_FILE USERS_FILE = false := by decide
      rw [hdef, if_neg (by rw [h1]; exact Bool.false_ne_true),
        if_neg (by rw [h2]; exact Bool.false_ne_true), if_pos rfl]
  · intro j hj
    rw [load_data, hj]

theorem load_data_defaults_witness :
    ((fun _ : String => (none : Option FileData)) "alice_expenses.json" = none
      ∧ strContains BASE_EXPENSE_FILE "alice_expenses.json" = true)
    ∧ load_data (fun _ => none) "alice_expenses.json" = .arr [] :=
  ⟨⟨rfl, by decide⟩,
   ((load_data_defaults (fun _ => none) "alice_expenses.json").1
     (Or.inl rfl)).1 (by decide)⟩

/-- C4 counterexample: deleting a username that is *not* in the registry
still removes that name's backing files, because `delete_user_profile`
deletes the data files before the membership check.  Here the registry is
empty, yet `ghost_expenses.json` disappears; the claim requires both backing
files to be left unchanged in this case. -/
theorem delete_user_profile_cx :
    ("ghost" ∉ ghostState.users)
    ∧ ghostState.fs ("ghost" ++ BASE_EXPENSE_FILE) =
        some (.wellFormed (.arr []))
    ∧ (delete_user_profile ghostState "ghost").1 = false
    ∧ (delete_user_profile ghostState "ghost").2.fs
        ("ghost" ++ BASE_EXPENSE_FILE) = none := by
  refine ⟨by simp [ghostState], rfl, rfl, rfl⟩

/-- C4 (amended): `delete_user_profile` (after confirmation) always removes
both backing store files first, even for an unknown username — for which it
then returns `False`, leaving the registry, its persisted file and the active
identity unchanged.  For a registered username it removes the name's first
occurrence from the registry, persists the updated registry to `USERS_FILE`,
removes both backing files (a missing file is not an error), clears the
active identity exactly when the deleted user was active, returns `True`, and
touches no other file. -/
theorem delete_user_profile_spec (s : AppState) (u : String) :
    (u ∉ s.users →
      (delete_user_profile s u).1 = false
      ∧ (delete_user_profile s u).2.users = s.users
      ∧ (delete_user_profile s u).2.current = s.current
      ∧ (delete_user_profile s u).2.fs USERS_FILE = s.fs USERS_FILE
      ∧ (delete_user_profile s u).2.fs (u ++ BASE_EXPENSE_FILE) = none
      ∧ (delete_user_profile s u).2.fs (u ++ BASE_BUDGET_FILE) = none)
    ∧ (u ∈ s.users →
      (delete_user_profile s u).1 = true
      ∧ (delete_user_profile s u).2.users = s.users.erase u
      ∧ (delete_user_profile s u).2.fs USERS_FILE =
          some (.wellFormed (serializeUsers (s.users.erase u)))
      ∧ (delete_user_profile s u).2.fs (u ++ BASE_EXPENSE_FILE) = none
      ∧ (delete_user_profile s u).2.fs (u ++ BASE_BUDGET_FILE) = none
      ∧ (delete_user_profile s u).2.current =
          (if s.current = some u then none else s.current)
      ∧ ∀ n, n ≠ u ++ BASE_EXPENSE_FILE → n ≠ u ++ BASE_BUDGET_FILE →
          n ≠ USERS_FILE → (delete_user_profile s u).2.fs n = s.fs n) := by
  have hEB : u ++ BASE_EXPENSE_FILE ≠ u ++ BASE_BUDGET_FILE :=
    expense_file_ne_budget_file u
  have hUE : USERS_FILE ≠ u ++ BASE_EXPENSE_FILE :=
    fun h => expense_file_ne_users_file u h.symm
  have hUB : USERS_FILE ≠ u ++ BASE_BUDGET_FILE :=
    fun h => budget_file_ne_users_file u h.symm
  constructor
  · intro hu
    rw [delete_user_profile, if_neg hu]
    dsimp only
    refine ⟨rfl, rfl, rfl, ?_, ?_, ?_⟩
    · rw [removeFile_other _ _ _ hUB, removeFile_other _ _ _ hUE]
    · rw [removeFile_other _ _ _ hEB, removeFile_self]
    · rw [removeFile_self]
  · intro hu
    rw [delete_user_profile, if_pos hu]
    dsimp only
    refine ⟨rfl, rfl, ?_, ?_, ?_, rfl, ?_⟩
    · exact save_data_self _ _ _
    · rw [save_data_other _ _ _ _ (expense_file_ne_users_file u),
        removeFile_other _ _ _ hEB, removeFile_self]
    · rw [save_data_other _ _ _ _ (budget_file_ne_users_file u),
        removeFile_self]
    · intro n hnE hnB hnU
      rw [save_data_other _ _ _ _ hnU, removeFile_other _ _ _ hnB,
        removeFile_other _ _ _ hnE]

theorem delete_user_profile_spec_witness :
    ("bob" ∈ bobState.users)
    ∧ (delete_user_profile bobState "bob").2.users = []
    ∧ (delete_user_profile bobState "bob").2.current = none :=
  ⟨by simp [bobState], by
    have h := (delete_user_profile_spec bobState "bob").2 (by simp [bobState])
    rw [h.2.1]
    rfl, by
    have h := (delete_user_profile_spec bobState "bob").2 (by simp [bobState])
    rw [h.2.2.2.2.2.1]
    rfl⟩

/-- C8 counterexample: the username `"a b"` is already present in the
registry, but `create_user` rejects it with `InvalidUsername`, not
`DuplicateUser`: the alphanumeric check runs before the duplicate check. -/
theorem create_user_cx :
    ("a b" ∈ spacedState.users)
    ∧ (create_user spacedState "a b").1 = some .invalidUsername
    ∧ (create_user spacedState "a b").1 ≠ some .duplicateUser := by
  refine ⟨by simp [spacedState], rfl, by decide⟩

/-- C8 (amended): `create_user` checks validity first — an empty or
non-alphanumeric name fails with `InvalidUsername` even when it is already
registered, with no state change; an alphanumeric name already present fails
with `DuplicateUser`, with no state change (so the registry holds exactly as
many occurrences of the name afterwards as before — exactly one when it held
one); an alphanumeric new name is appended to the registry, which is
persisted to `USERS_FILE`, and becomes the active user. -/
theorem create_user_spec (s : AppState) (u : String) :
    (pyIsAlnum u = false → create_user s u = (some .invalidUsername, s))
    ∧ (pyIsAlnum u = true → u ∈ s.users →
        create_user s u = (some .duplicateUser, s)
        ∧ (create_user s u).2.users.count u = s.users.count u)
    ∧ (pyIsAlnum u = true → u ∉ s.users →
        (create_user s u).1 = none
        ∧ (create_user s u).2.users = s.users ++ [u]
        ∧ (create_user s u).2.fs USERS_FILE =
            some (.wellFormed (serializeUsers (s.users ++ [u])))
        ∧ (create_user s u).2.current = some u) := by
  refine ⟨?_, ?_, ?_⟩
  · intro h
    rw [create_user, if_pos (by rw [h]; rfl)]
  · intro h hu
    have heq : create_user s u = (some .duplicateUser, s) := by
      rw [create_user, if_neg (by rw [h]; simp), if_pos hu]
    exact ⟨heq, by rw [heq]⟩
  · intro h hu
    have heq : create_user s u =
        (none, ⟨save_data s.fs (serializeUsers (s.users ++ [u])) USERS_FILE,
          s.users ++ [u], some u⟩) := by
      rw [create_user, if_neg (by rw [h]; simp), if_neg hu]
    rw [heq]
    dsimp only
    exact ⟨rfl, rfl, save_data_self _ _ _, rfl⟩

theorem create_user_spec_witness :
    (pyIsAlnum "alice" = true ∧ "alice" ∉ (["bob"] : List String))
    ∧ (create_user ⟨fun _ => none, ["bob"], none⟩ "alice").2.users =
        ["bob", "alice"] :=
  ⟨⟨by decide, by decide⟩, by
    have h := (create_user_spec ⟨fun _ => none, ["bob"], none⟩ "alice").2.2
      (by decide) (by decide)
    rw [h.2.1]
    rfl⟩

end ExpenseTrack
